import Mathlib

/-!
Shallow embedding of `production_plan.py` (economic dispatch service).

The embedding models the dispatch core as total functions over exact
rationals.  Python floats become `ℚ`; a Python `float('inf')` marginal cost
becomes the dedicated constructor `Cost.inf`; fallible code becomes
`Except Err`.  Fuel-market entries that may be absent (or, for the wind
percentage, non-numeric, which `float(...)` rejects the same way as absence)
are `Option ℚ`.  List mutation through Python's in-place `sorted` views is
modelled by tagging plants with their original index, updating the sorted
view, and restoring the original order afterwards.
-/

namespace ProductionPlan

/-- An input power plant, as found under the `powerplants` key of the
payload.  `efficiency` is optional because the code reads it with
`plant.get('efficiency', 1.0)`. -/
structure Plant where
  name : String
  ptype : String
  efficiency : Option ℚ
  pmin : ℚ
  pmax : ℚ
deriving DecidableEq, Repr

/-- The `fuels` mapping.  `gas` is `'gas(euro/MWh)'`, `kerosine` is
`'kerosine(euro/MWh)'`, `co2` is `'co2(euro/ton)'`, `wind` is `'wind(%)'`.
`wind = none` models a value that is missing or that `float(...)` cannot
convert (the code treats both identically through `try/except`). -/
structure Fuels where
  gas : Option ℚ
  kerosine : Option ℚ
  co2 : Option ℚ
  wind : Option ℚ
deriving DecidableEq, Repr

/-- A marginal cost: a finite rational or `float('inf')` (unknown plant
types). -/
inductive Cost where
  | fin (q : ℚ)
  | inf
deriving DecidableEq, Repr

/-- Python's `<=` on costs, where `inf` compares greater-or-equal to
everything; used as the sort key comparator. -/
def Cost.ble : Cost → Cost → Bool
  | .fin a, .fin b => decide (a ≤ b)
  | .fin _, .inf => true
  | .inf, .fin _ => false
  | .inf, .inf => true

/-- A `running_plant` dict: the derived dispatch candidate.  `power` is the
`'power'` key added by `productionplan` (0 until then; the record carries it
from the start for convenience, initialised to 0 as the code does). -/
structure RPlant where
  name : String
  ptype : String
  efficiency : ℚ
  pmin : ℚ
  pmax : ℚ
  cost : Cost
  power : ℚ
deriving DecidableEq, Repr

/-- A response entry `{'name': ..., 'power': ...}`. -/
structure Entry where
  name : String
  power : ℚ
deriving DecidableEq, Repr

/-- Python's `abs` on a rational, written so that the kernel evaluates it
directly. -/
def qabs (x : ℚ) : ℚ := if x < 0 then -x else x

/-- Python's binary `min`. -/
def qmin (a b : ℚ) : ℚ := if a ≤ b then a else b

/-- Python's binary `max`. -/
def qmax (a b : ℚ) : ℚ := if a ≤ b then b else a

/-- The hard failures the request can end in.  The first four carry the
information interpolated into the corresponding Python error message /
exception; `unboundLocalFinalTotal` models line 152's reference to
`final_total` before its assignment (an `UnboundLocalError` if that branch
is ever taken). -/
inductive Err where
  | missingGasPrice
  | missingKerosinePrice
  | invalidWind
  | loadOutOfRange (load tmin tmax : ℚ)
  | unboundLocalFinalTotal
deriving DecidableEq, Repr

instance {ε α : Type} [DecidableEq ε] [DecidableEq α] : DecidableEq (Except ε α) := fun a b =>
  match a, b with
  | .error x, .error y =>
      if h : x = y then .isTrue (by rw [h]) else .isFalse (by simp [h])
  | .error _, .ok _ => .isFalse (by simp)
  | .ok _, .error _ => .isFalse (by simp)
  | .ok x, .ok y =>
      if h : x = y then .isTrue (by rw [h]) else .isFalse (by simp [h])

/-- `compute_cost(plant, fuels)` (lines 16–41). -/
def compute_cost (plant : Plant) (fuels : Fuels) : Except Err Cost :=
  let eff := plant.efficiency.getD 1
  if plant.ptype = "windturbine" then
    .ok (.fin 0)
  else if plant.ptype = "gasfired" then
    match fuels.gas with
    | none => .error .missingGasPrice
    | some g => .ok (.fin (g / eff + 3 / 10 * fuels.co2.getD 0))
  else if plant.ptype = "turbojet" then
    match fuels.kerosine with
    | none => .error .missingKerosinePrice
    | some k => .ok (.fin (k / eff))
  else
    .ok .inf

/-- `get_windpowerplant_power(plant, fuels)` (lines 54–62); returns
`(pmax, pmin)` in that order, exactly like the Python function. -/
def get_windpowerplant_power (plant : Plant) (fuels : Fuels) : Except Err (ℚ × ℚ) :=
  match fuels.wind with
  | none => .error .invalidWind
  | some w =>
      let factor := qmax 0 (qmin 100 w) / 100
      .ok (plant.pmax * factor, 0)

/-- `obtain_power(plant, fuels)` (lines 44–52); returns `(pmin, pmax)`. -/
def obtain_power (plant : Plant) (fuels : Fuels) : Except Err (ℚ × ℚ) :=
  if plant.ptype ≠ "windturbine" then
    .ok (plant.pmin, plant.pmax)
  else
    match get_windpowerplant_power plant fuels with
    | .error e => .error e
    | .ok (pmax, pmin) => .ok (pmin, pmax)

/-- `process_plants(running_plants, plants, fuels)` (lines 83–105): builds
the running-plant list and the aggregate bounds, stopping at the first
plant whose wind adjustment or cost computation fails.  (In the Python
code the wind failure is returned as a 400 response and the cost failure
propagates as an uncaught exception; both abort the request without a
plan, which is what `.error` models.) -/
def process_plants (plants : List Plant) (fuels : Fuels) : Except Err (List RPlant × ℚ × ℚ) :=
  match plants with
  | [] => .ok ([], 0, 0)
  | p :: ps =>
    match obtain_power p fuels with
    | .error e => .error e
    | .ok (pmin, pmax) =>
      match compute_cost p fuels with
      | .error e => .error e
      | .ok c =>
        match process_plants ps fuels with
        | .error e => .error e
        | .ok (rps, tmin, tmax) =>
            .ok (⟨p.name, p.ptype, p.efficiency.getD 1, pmin, pmax, c, 0⟩ :: rps,
                 tmin + pmin, tmax + pmax)

/-- A stable insertion sort on a boolean `≤`-style comparator; extensionally
the stable sort Python's `sorted` performs. -/
def orderedInsertBy {α : Type} (le : α → α → Bool) (x : α) : List α → List α
  | [] => [x]
  | y :: ys => if le x y then x :: y :: ys else y :: orderedInsertBy le x ys

/-- Stable insertion sort driver for `orderedInsertBy`. -/
def insertionSortBy {α : Type} (le : α → α → Bool) : List α → List α
  | [] => []
  | x :: xs => orderedInsertBy le x (insertionSortBy le xs)

/-- Σ f over a plant list. -/
def sumBy (f : RPlant → ℚ) (l : List RPlant) : ℚ := (l.map f).sum

/-- `sum(it['power'] for it in running_plants)`. -/
def sumPower (l : List RPlant) : ℚ := sumBy (fun p => p.power) l

/-- `sum(r['power'] for r in response)`. -/
def sumPowerE (l : List Entry) : ℚ := (l.map (fun r => r.power)).sum

/-- The `1e-9` literal of the merit-order loop's break condition. -/
def eps9 : ℚ := 1 / 1000000000

/-- The merit-order fill loop (lines 137–143): walk the cost-sorted list,
each plant absorbing `min(pmax - power, remaining)`, breaking once the
remaining load is ≤ 1e-9.  Returns the updated list and the remaining
load. -/
def fillLoop : List RPlant → ℚ → List RPlant × ℚ
  | [], rem => ([], rem)
  | p :: ps, rem =>
    if rem ≤ eps9 then (p :: ps, rem)
    else
      let toAdd := qmin (p.pmax - p.power) rem
      let res := fillLoop ps (rem - toAdd)
      ({ p with power := p.power + toAdd } :: res.1, res.2)

/-- Restore a tagged, sorted working copy to original index order and drop
the tags: models that Python's `sorted(...)` views alias the same dicts,
so mutations land back in the original list in its original order. -/
def restoreOrder (l : List (ℕ × RPlant)) : List RPlant :=
  (insertionSortBy (fun a b => Nat.ble a.1 b.1) l).map (fun a => a.2)

/-- The overshoot pass (lines 184–191): most-expensive-first, each plant
releases `min(power - pmin, diff)` while `diff > minimum_difference`. -/
def reducePass (minDiff : ℚ) : List (ℕ × RPlant) → ℚ → List (ℕ × RPlant) × ℚ
  | [], diff => ([], diff)
  | (i, p) :: rest, diff =>
    if diff ≤ minDiff then ((i, p) :: rest, diff)
    else
      let reduceBy := qmin (p.power - p.pmin) diff
      if 0 < reduceBy then
        let res := reducePass minDiff rest (diff - reduceBy)
        ((i, { p with power := p.power - reduceBy }) :: res.1, res.2)
      else
        let res := reducePass minDiff rest diff
        ((i, p) :: res.1, res.2)

/-- The undershoot pass (lines 194–202): cheapest-first, each plant absorbs
`min(pmax - power, need)` while `need > minimum_difference`. -/
def increasePass (minDiff : ℚ) : List (ℕ × RPlant) → ℚ → List (ℕ × RPlant) × ℚ
  | [], need => ([], need)
  | (i, p) :: rest, need =>
    if need ≤ minDiff then ((i, p) :: rest, need)
    else
      let add := qmin (p.pmax - p.power) need
      if 0 < add then
        let res := increasePass minDiff rest (need - add)
        ((i, { p with power := p.power + add }) :: res.1, res.2)
      else
        let res := increasePass minDiff rest need
        ((i, p) :: res.1, res.2)

/-- One body execution of the rebalancing `while` loop (lines 176–204),
minus the break tests that the driver performs. -/
def rebalanceStep (load minDiff : ℚ) (plants : List RPlant) : List RPlant :=
  let diff := sumPower plants - load
  if 0 < diff then
    restoreOrder
      (reducePass minDiff
        (insertionSortBy (fun a b => Cost.ble b.2.cost a.2.cost) plants.enum) diff).1
  else
    restoreOrder
      (increasePass minDiff
        (insertionSortBy (fun a b => Cost.ble a.2.cost b.2.cost) plants.enum) (-diff)).1

/-- The rebalancing `while` loop of `optional_precision_iteration`
(lines 175–204), with `fuel = max_iter - iter_count` making the
`iter_count < max_iter` conjunct structural.  The guard is
`not isclose(total, load, rel_tol=0, abs_tol=0.5)`, i.e. the loop runs only
while `|total - load| > 0.5`; inside, `abs(diff) < minimum_difference`
breaks.  Returns the plants and the final `iter_count`. -/
def oPIGo (load minDiff : ℚ) : ℕ → List RPlant → ℕ → List RPlant × ℕ
  | 0, plants, ic => (plants, ic)
  | fuel + 1, plants, ic =>
    if qabs (sumPower plants - load) ≤ 1 / 2 then (plants, ic)
    else if qabs (sumPower plants - load) < minDiff then (plants, ic)
    else oPIGo load minDiff fuel (rebalanceStep load minDiff plants) (ic + 1)

/-- `optional_precision_iteration` with its loop counter exposed: the
mutated plant list together with the number of `while`-body executions. -/
def optional_precision_iteration_aux (load : ℚ) (plants : List RPlant)
    (max_iter iter_count : ℕ) (minDiff : ℚ) : List RPlant × ℕ :=
  oPIGo load minDiff (max_iter - iter_count) plants iter_count

/-- `optional_precision_iteration(load, running_plants, max_iter,
iter_count, minimum_difference)` (lines 174–206): returns the mutated
plant list (the Python function mutates it in place) and `final_total`. -/
def optional_precision_iteration (load : ℚ) (plants : List RPlant)
    (max_iter iter_count : ℕ) (minDiff : ℚ) : List RPlant × ℚ :=
  let r := optional_precision_iteration_aux load plants max_iter iter_count minDiff
  (r.1, sumPower r.1)

/-- Python's `round` to the nearest integer: round-half-to-even. -/
def pyRoundInt (x : ℚ) : ℤ :=
  let f := Int.floor x
  let frac := x - (f : ℚ)
  if frac < 1 / 2 then f
  else if 1 / 2 < frac then f + 1
  else if f % 2 = 0 then f else f + 1

/-- Python's `round(x, 1)`. -/
def pyRound1 (x : ℚ) : ℚ := (pyRoundInt (10 * x) : ℚ) / 10

/-- Inner loop of `ensure_total_equals_load` (lines 73–79): find the first
response entry named `name`, nudge it by `difference` if the result stays
inside `[pmin - 1e-9, pmax + 1e-9]` and non-negative, and stop at that
entry either way.  Returns the updated response and remaining
difference. -/
def tryAdjust (name : String) (difference pmin pmax : ℚ) : List Entry → List Entry × ℚ
  | [] => ([], difference)
  | r :: rs =>
    if r.name = name then
      let new_p := r.power + difference
      if pmin - eps9 ≤ new_p ∧ new_p ≤ pmax + eps9 ∧ 0 ≤ new_p then
        ({ r with power := pyRound1 new_p } :: rs, 0)
      else (r :: rs, difference)
    else
      let res := tryAdjust name difference pmin pmax rs
      (r :: res.1, res.2)

/-- Outer loop of `ensure_total_equals_load` (lines 72–81): walk the
cost-sorted plants, breaking as soon as the difference has been absorbed
(set to `0.0`). -/
def adjustLoop : List RPlant → List Entry → ℚ → List Entry
  | [], response, _ => response
  | p :: ps, response, difference =>
    let res := tryAdjust p.name difference p.pmin p.pmax response
    if res.2 = 0 then res.1 else adjustLoop ps res.1 res.2

/-- `ensure_total_equals_load(load, running_plants, response,
rounded_total)` (lines 64–81), returning the (possibly adjusted)
response. -/
def ensure_total_equals_load (load : ℚ) (running_plants : List RPlant)
    (response : List Entry) (rounded_total : ℚ) : List Entry :=
  let difference := pyRound1 (load - rounded_total)
  if 1 / 10 ≤ qabs difference then
    adjustLoop (insertionSortBy (fun a b => Cost.ble a.cost b.cost) running_plants)
      response difference
  else response

/-- Line 129's re-initialisation `plant['power'] = 0` followed by line
133's stable ascending-cost sort. -/
def initPlants (rps : List RPlant) : List RPlant :=
  insertionSortBy (fun a b => Cost.ble a.cost b.cost)
    (rps.map (fun p => { p with power := 0 }))

/-- Lines 127–143: power reset, cost sort, `remaining_total_load` and the
merit-order fill.  Returns the filled list and the remaining load. -/
def meritFill (load : ℚ) (rps : List RPlant) : List RPlant × ℚ :=
  fillLoop (initPlants rps) (load - sumPower (initPlants rps))

/-- `productionplan()` (lines 109–172) after payload extraction: the core
dispatch computation from `(load, plants, fuels)` to a response or a hard
failure.  Line 151's condition is `not isclose(..., abs_tol=0.5) and
iter_count < max_iter` with `iter_count = 0 < 1000`, so it fires exactly
when `|Σ power - load| > 0.5` — and its body reads the unassigned
`final_total`, which `Err.unboundLocalFinalTotal` models. -/
def productionplan (load : ℚ) (plants : List Plant) (fuels : Fuels) :
    Except Err (List Entry) :=
  match process_plants plants fuels with
  | .error e => .error e
  | .ok (rps, tmin, tmax) =>
    if load < tmin ∨ tmax < load then
      .error (.loadOutOfRange load tmin tmax)
    else
      let filled := (meritFill load rps).1
      if ¬ qabs (sumPower filled - load) ≤ 1 / 2 then
        .error .unboundLocalFinalTotal
      else
        let reb := (optional_precision_iteration load filled 1000 0 (1 / 1000000)).1
        let response := reb.map (fun p => Entry.mk p.name p.power)
        let rounded_total := sumPowerE response
        .ok (ensure_total_equals_load load reb response rounded_total)

end ProductionPlan

namespace ProductionPlan

theorem qabs_eq (x : ℚ) : qabs x = |x| := by
  unfold qabs
  by_cases h : x < 0
  · rw [if_pos h, abs_of_neg h]
  · rw [if_neg h, abs_of_nonneg (le_of_not_lt h)]

theorem qmin_eq (a b : ℚ) : qmin a b = min a b := (min_def a b).symm

theorem qmax_eq (a b : ℚ) : qmax a b = max a b := (max_def a b).symm

theorem pyRoundInt_of_abs_lt_half {y : ℚ} (h : |y| < 1 / 2) : pyRoundInt y = 0 := by
  unfold pyRoundInt
  obtain ⟨h1, h2⟩ := abs_lt.mp h
  by_cases h0 : 0 ≤ y
  · have hf : Int.floor y = 0 := by
      rw [Int.floor_eq_zero_iff]
      constructor
      · exact h0
      · linarith
    rw [hf]
    simp only [Int.cast_zero, sub_zero]
    rw [if_pos h2]
  · have hf : Int.floor y = -1 := by
      rw [Int.floor_eq_iff]
      push_neg at h0
      constructor
      · push_cast
        linarith
      · push_cast
        linarith
    rw [hf]
    have hfrac : ¬ (y - ((-1 : ℤ) : ℚ) < 1 / 2) := by
      push_cast
      linarith
    rw [if_neg hfrac, if_pos (by push_cast; linarith)]
    norm_num

theorem pyRound1_of_small {x : ℚ} (h : |x| ≤ eps9) : pyRound1 x = 0 := by
  unfold pyRound1
  rw [pyRoundInt_of_abs_lt_half]
  · norm_num
  · rw [abs_mul]
    have : |x| ≤ 1 / 1000000000 := h
    rw [abs_of_nonneg (by norm_num : (0:ℚ) ≤ 10)]
    linarith

theorem mem_orderedInsertBy {α : Type} (le : α → α → Bool) (x a : α) (l : List α) :
    a ∈ orderedInsertBy le x l ↔ a = x ∨ a ∈ l := by
  induction l with
  | nil => simp [orderedInsertBy]
  | cons y ys ih =>
    unfold orderedInsertBy
    by_cases h : le x y
    · simp [h]
    · simp only [h]
      simp only [Bool.false_eq_true, if_false, List.mem_cons, ih]
      tauto

theorem orderedInsertBy_perm {α : Type} (le : α → α → Bool) (x : α) (l : List α) :
    List.Perm (orderedInsertBy le x l) (x :: l) := by
  induction l with
  | nil => simp [orderedInsertBy]
  | cons y ys ih =>
    unfold orderedInsertBy
    by_cases h : le x y
    · simp [h]
    · simp only [h, Bool.false_eq_true, if_false]
      exact List.Perm.trans (List.Perm.cons y ih) (List.Perm.swap x y ys)

theorem insertionSortBy_perm {α : Type} (le : α → α → Bool) (l : List α) :
    List.Perm (insertionSortBy le l) l := by
  induction l with
  | nil => simp [insertionSortBy]
  | cons x xs ih =>
    unfold insertionSortBy
    exact List.Perm.trans (orderedInsertBy_perm le x (insertionSortBy le xs))
      (List.Perm.cons x ih)

theorem mem_insertionSortBy {α : Type} (le : α → α → Bool) (a : α) (l : List α) :
    a ∈ insertionSortBy le l ↔ a ∈ l :=
  (insertionSortBy_perm le l).mem_iff

theorem sumBy_insertionSortBy (f : RPlant → ℚ) (le : RPlant → RPlant → Bool)
    (l : List RPlant) : sumBy f (insertionSortBy le l) = sumBy f l :=
  List.Perm.sum_eq (List.Perm.map f (insertionSortBy_perm le l))

theorem sumBy_nonneg {f : RPlant → ℚ} {l : List RPlant}
    (h : ∀ p ∈ l, 0 ≤ f p) : 0 ≤ sumBy f l := by
  unfold sumBy
  apply List.sum_nonneg
  intro x hx
  obtain ⟨p, hp, rfl⟩ := List.mem_map.mp hx
  exact h p hp

theorem sumBy_eq_zero {f : RPlant → ℚ} {l : List RPlant}
    (h : ∀ p ∈ l, f p = 0) : sumBy f l = 0 := by
  unfold sumBy
  apply List.sum_eq_zero
  intro x hx
  obtain ⟨p, hp, rfl⟩ := List.mem_map.mp hx
  exact h p hp

theorem sumBy_congr {f g : RPlant → ℚ} {l : List RPlant}
    (h : ∀ p ∈ l, f p = g p) : sumBy f l = sumBy g l := by
  unfold sumBy
  rw [List.map_congr_left h]

end ProductionPlan

namespace ProductionPlan

theorem eps9_pos : 0 < eps9 := by norm_num [eps9]

theorem fillLoop_sum (ps : List RPlant) (rem : ℚ) :
    sumPower (fillLoop ps rem).1 = sumPower ps + (rem - (fillLoop ps rem).2) := by
  induction ps generalizing rem with
  | nil => simp [fillLoop]
  | cons p ps ih =>
    unfold fillLoop
    by_cases h : rem ≤ eps9
    · simp [h]
    · simp only [h, if_false]
      simp only [sumPower, sumBy, List.map_cons, List.sum_cons] at ih ⊢
      rw [ih (rem - qmin (p.pmax - p.power) rem)]
      ring

theorem fillLoop_rem_nonneg {ps : List RPlant} {rem : ℚ} (h : 0 ≤ rem) :
    0 ≤ (fillLoop ps rem).2 := by
  induction ps generalizing rem with
  | nil => simpa [fillLoop]
  | cons p ps ih =>
    unfold fillLoop
    by_cases hb : rem ≤ eps9
    · simpa [hb]
    · simp only [hb, if_false]
      apply ih
      rw [qmin_eq]
      have : min (p.pmax - p.power) rem ≤ rem := min_le_right _ _
      linarith

theorem fillLoop_rem_le {ps : List RPlant} {rem : ℚ} (h0 : 0 ≤ rem)
    (hcap : ∀ p ∈ ps, 0 ≤ p.pmax - p.power) :
    (fillLoop ps rem).2 ≤ eps9 ∨
      (fillLoop ps rem).2 ≤ rem - sumBy (fun p => p.pmax - p.power) ps := by
  induction ps generalizing rem with
  | nil =>
    right
    simp [fillLoop, sumBy]
  | cons p ps ih =>
    unfold fillLoop
    by_cases hb : rem ≤ eps9
    · left
      simp [hb]
    · simp only [hb, if_false]
      push_neg at hb
      have hhead : 0 ≤ p.pmax - p.power := hcap p (by simp)
      have htail : ∀ q ∈ ps, 0 ≤ q.pmax - q.power := fun q hq => hcap q (by simp [hq])
      have hstail : 0 ≤ sumBy (fun q => q.pmax - q.power) ps := sumBy_nonneg htail
      rw [qmin_eq]
      by_cases hav : p.pmax - p.power ≤ rem
      · rw [min_eq_left hav]
        rcases ih (show (0:ℚ) ≤ rem - (p.pmax - p.power) by linarith) htail with hl | hr
        · left
          exact hl
        · right
          simp only [sumBy, List.map_cons, List.sum_cons]
          simp only [sumBy] at hr
          linarith
      · push_neg at hav
        rw [min_eq_right (le_of_lt hav)]
        rcases ih (show (0:ℚ) ≤ rem - rem by linarith) htail with hl | hr
        · left
          exact hl
        · left
          have hs : (0:ℚ) ≤ sumBy (fun q => q.pmax - q.power) ps := hstail
          simp only [sumBy] at hr hs
          linarith [eps9_pos]

theorem fillLoop_mem {ps : List RPlant} {rem : ℚ} (h0 : 0 ≤ rem)
    (hcap : ∀ p ∈ ps, 0 ≤ p.pmax - p.power) :
    ∀ q ∈ (fillLoop ps rem).1, ∃ p ∈ ps,
      q.name = p.name ∧ q.pmin = p.pmin ∧ q.pmax = p.pmax ∧ q.cost = p.cost ∧
      p.power ≤ q.power ∧ q.power ≤ p.pmax := by
  induction ps generalizing rem with
  | nil =>
    intro q hq
    simp [fillLoop] at hq
  | cons p ps ih =>
    intro q hq
    unfold fillLoop at hq
    by_cases hb : rem ≤ eps9
    · simp only [hb, if_true] at hq
      rcases List.mem_cons.mp hq with rfl | hmem
      · exact ⟨q, by simp, rfl, rfl, rfl, rfl, le_refl _, by
          have := hcap q (by simp)
          linarith⟩
      · obtain ⟨r, hr, hfacts⟩ :=
          (fun x hx => ⟨x, hx, rfl, rfl, rfl, rfl, le_refl _, by
            have := hcap x (List.mem_cons_of_mem p hx)
            linarith⟩ :
            ∀ x ∈ ps, ∃ r ∈ ps, x.name = r.name ∧ x.pmin = r.pmin ∧ x.pmax = r.pmax ∧
              x.cost = r.cost ∧ r.power ≤ x.power ∧ x.power ≤ r.pmax) q hmem
        exact ⟨r, List.mem_cons_of_mem p hr, hfacts⟩
    · simp only [hb, if_false] at hq
      push_neg at hb
      have hhead : 0 ≤ p.pmax - p.power := hcap p (by simp)
      have htail : ∀ x ∈ ps, 0 ≤ x.pmax - x.power := fun x hx => hcap x (by simp [hx])
      have htA : 0 ≤ qmin (p.pmax - p.power) rem := by
        rw [qmin_eq, le_min_iff]
        constructor
        · exact hhead
        · linarith [eps9_pos]
      have htB : qmin (p.pmax - p.power) rem ≤ p.pmax - p.power := by
        rw [qmin_eq]
        exact min_le_left _ _
      rcases List.mem_cons.mp hq with rfl | hmem
      · refine ⟨p, by simp, rfl, rfl, rfl, rfl, ?_, ?_⟩
        · simp only [RPlant.mk.injEq]
          linarith
        · simp only
          linarith
      · have hrem2 : 0 ≤ rem - qmin (p.pmax - p.power) rem := by
          rw [qmin_eq]
          have : min (p.pmax - p.power) rem ≤ rem := min_le_right _ _
          linarith
        obtain ⟨r, hr, hfacts⟩ := ih hrem2 htail q hmem
        exact ⟨r, List.mem_cons_of_mem p hr, hfacts⟩

end ProductionPlan

namespace ProductionPlan

theorem qmax_nonneg (x : ℚ) : 0 ≤ qmax 0 x := by
  rw [qmax_eq]
  exact le_max_left 0 x

theorem obtain_power_nonneg {p : Plant} {fuels : Fuels} {a b : ℚ}
    (h : obtain_power p fuels = .ok (a, b))
    (h1 : 0 ≤ p.pmin) (h2 : 0 ≤ p.pmax) : 0 ≤ a ∧ 0 ≤ b := by
  unfold obtain_power at h
  by_cases ht : p.ptype ≠ "windturbine"
  · rw [if_pos ht] at h
    simp only [Except.ok.injEq, Prod.mk.injEq] at h
    obtain ⟨rfl, rfl⟩ := h
    exact ⟨h1, h2⟩
  · rw [if_neg ht] at h
    unfold get_windpowerplant_power at h
    cases hw : fuels.wind with
    | none =>
      rw [hw] at h
      simp at h
    | some w =>
      rw [hw] at h
      simp only [Except.ok.injEq, Prod.mk.injEq] at h
      obtain ⟨rfl, rfl⟩ := h
      refine ⟨le_refl 0, ?_⟩
      have hf : 0 ≤ qmax 0 (qmin 100 w) / 100 := by
        have := qmax_nonneg (qmin 100 w)
        positivity
      exact mul_nonneg h2 hf

theorem process_plants_facts {plants : List Plant} {fuels : Fuels}
    {rps : List RPlant} {tmin tmax : ℚ}
    (hpp : process_plants plants fuels = .ok (rps, tmin, tmax))
    (hv : ∀ p ∈ plants, 0 ≤ p.pmin ∧ 0 ≤ p.pmax) :
    (∀ r ∈ rps, r.power = 0 ∧ 0 ≤ r.pmin ∧ 0 ≤ r.pmax) ∧
    tmin = sumBy (fun r => r.pmin) rps ∧ tmax = sumBy (fun r => r.pmax) rps := by
  induction plants generalizing rps tmin tmax with
  | nil =>
    unfold process_plants at hpp
    simp only [Except.ok.injEq, Prod.mk.injEq] at hpp
    obtain ⟨rfl, rfl, rfl⟩ := hpp
    simp [sumBy]
  | cons p ps ih =>
    unfold process_plants at hpp
    cases hop : obtain_power p fuels with
    | error e =>
      rw [hop] at hpp
      simp at hpp
    | ok pr =>
      obtain ⟨a, b⟩ := pr
      rw [hop] at hpp
      cases hcc : compute_cost p fuels with
      | error e =>
        rw [hcc] at hpp
        simp at hpp
      | ok c =>
        rw [hcc] at hpp
        cases hps : process_plants ps fuels with
        | error e =>
          rw [hps] at hpp
          simp at hpp
        | ok t =>
          obtain ⟨rps0, tmin0, tmax0⟩ := t
          rw [hps] at hpp
          simp only [Except.ok.injEq, Prod.mk.injEq] at hpp
          obtain ⟨hrps, htmin, htmax⟩ := hpp
          have hvp := hv p (by simp)
          have hab := obtain_power_nonneg hop hvp.1 hvp.2
          have hvt : ∀ q ∈ ps, 0 ≤ q.pmin ∧ 0 ≤ q.pmax := fun q hq => hv q (by simp [hq])
          obtain ⟨hm, h1, h2⟩ := ih hps hvt
          subst hrps htmin htmax
          refine ⟨?_, ?_, ?_⟩
          · intro r hr
            rcases List.mem_cons.mp hr with rfl | hmem
            · exact ⟨rfl, hab.1, hab.2⟩
            · exact hm r hmem
          · simp only [sumBy, List.map_cons, List.sum_cons]
            simp only [sumBy] at h1
            rw [← h1]
            ring
          · simp only [sumBy, List.map_cons, List.sum_cons]
            simp only [sumBy] at h2
            rw [← h2]
            ring

theorem initPlants_mem {r : RPlant} {rps : List RPlant} (h : r ∈ initPlants rps) :
    ∃ p ∈ rps, r = { p with power := 0 } := by
  unfold initPlants at h
  rw [mem_insertionSortBy] at h
  obtain ⟨p, hp, hpr⟩ := List.mem_map.mp h
  exact ⟨p, hp, hpr.symm⟩

theorem initPlants_power_zero (rps : List RPlant) :
    ∀ r ∈ initPlants rps, r.power = 0 := by
  intro r hr
  obtain ⟨p, _, rfl⟩ := initPlants_mem hr
  rfl

theorem initPlants_sum_pmax (rps : List RPlant) :
    sumBy (fun r => r.pmax) (initPlants rps) = sumBy (fun r => r.pmax) rps := by
  unfold initPlants
  rw [sumBy_insertionSortBy]
  unfold sumBy
  rw [List.map_map]
  rfl

theorem oPIGo_close {load minDiff : ℚ} {plants : List RPlant} {fuel ic : ℕ}
    (h : qabs (sumPower plants - load) ≤ 1 / 2) :
    oPIGo load minDiff fuel plants ic = (plants, ic) := by
  cases fuel with
  | zero => rfl
  | succ n =>
    unfold oPIGo
    rw [if_pos h]

theorem optional_precision_iteration_close {load minDiff : ℚ} {plants : List RPlant}
    {max_iter iter_count : ℕ}
    (h : qabs (sumPower plants - load) ≤ 1 / 2) :
    optional_precision_iteration load plants max_iter iter_count minDiff =
      (plants, sumPower plants) := by
  unfold optional_precision_iteration optional_precision_iteration_aux
  rw [oPIGo_close h]

theorem ensure_noop {load rounded_total : ℚ} {rps : List RPlant} {resp : List Entry}
    (h : |load - rounded_total| ≤ eps9) :
    ensure_total_equals_load load rps resp rounded_total = resp := by
  unfold ensure_total_equals_load
  rw [pyRound1_of_small h]
  rw [if_neg (by norm_num [qabs])]

theorem sumPowerE_map (l : List RPlant) :
    sumPowerE (l.map (fun p => Entry.mk p.name p.power)) = sumPower l := by
  unfold sumPowerE sumPower sumBy
  rw [List.map_map]
  rfl

theorem productionplan_ok_eq {load : ℚ} {plants : List Plant} {fuels : Fuels}
    {rps : List RPlant} {tmin tmax : ℚ}
    (hv : ∀ p ∈ plants, 0 ≤ p.pmin ∧ 0 ≤ p.pmax)
    (hpp : process_plants plants fuels = .ok (rps, tmin, tmax))
    (h1 : tmin ≤ load) (h2 : load ≤ tmax) :
    productionplan load plants fuels =
      .ok ((meritFill load rps).1.map (fun p => Entry.mk p.name p.power)) ∧
    0 ≤ load - sumPower (meritFill load rps).1 ∧
    load - sumPower (meritFill load rps).1 ≤ eps9 := by
  obtain ⟨hmem, htmin, htmax⟩ := process_plants_facts hpp hv
  have hzero : ∀ r ∈ initPlants rps, r.power = 0 := initPlants_power_zero rps
  have hcap : ∀ r ∈ initPlants rps, 0 ≤ r.pmax - r.power := by
    intro r hr
    obtain ⟨p, hp, rfl⟩ := initPlants_mem hr
    have := (hmem p hp).2.2
    simpa using this
  have hsum0 : sumPower (initPlants rps) = 0 := sumBy_eq_zero hzero
  have hload0 : 0 ≤ load := by
    have : 0 ≤ tmin := by
      rw [htmin]
      exact sumBy_nonneg (fun r hr => (hmem r hr).2.1)
    linarith
  have hG : meritFill load rps = fillLoop (initPlants rps) load := by
    unfold meritFill
    rw [show sumPower (initPlants rps) = 0 from hsum0, sub_zero]
  have hr0 : 0 ≤ (fillLoop (initPlants rps) load).2 := fillLoop_rem_nonneg hload0
  have hcapsum : load ≤ sumBy (fun r => r.pmax - r.power) (initPlants rps) := by
    have he : sumBy (fun r => r.pmax - r.power) (initPlants rps) =
        sumBy (fun r => r.pmax) (initPlants rps) :=
      sumBy_congr (fun r hr => by rw [hzero r hr, sub_zero])
    rw [he, initPlants_sum_pmax, ← htmax]
    exact h2
  have hrle : (fillLoop (initPlants rps) load).2 ≤ eps9 := by
    rcases fillLoop_rem_le hload0 hcap with h | h
    · exact h
    · linarith [eps9_pos]
  have hsumfill : sumPower (fillLoop (initPlants rps) load).1 =
      load - (fillLoop (initPlants rps) load).2 := by
    rw [fillLoop_sum, hsum0]
    ring
  have hrem1 : 0 ≤ load - sumPower (meritFill load rps).1 := by
    rw [hG, hsumfill]
    linarith
  have hrem2 : load - sumPower (meritFill load rps).1 ≤ eps9 := by
    rw [hG, hsumfill]
    linarith
  have hguard : qabs (sumPower (meritFill load rps).1 - load) ≤ 1 / 2 := by
    rw [qabs_eq]
    have hd : sumPower (meritFill load rps).1 - load =
        -(load - sumPower (meritFill load rps).1) := by ring
    rw [hd, abs_neg, abs_of_nonneg hrem1]
    have : eps9 ≤ 1 / 2 := by norm_num [eps9]
    linarith
  refine ⟨?_, hrem1, hrem2⟩
  simp only [productionplan, hpp]
  rw [if_neg (by push_neg; exact ⟨h1, h2⟩)]
  rw [if_neg (not_not_intro hguard)]
  rw [optional_precision_iteration_close hguard]
  rw [ensure_noop (by
    rw [sumPowerE_map]
    rw [abs_of_nonneg hrem1]
    exact hrem2)]

end ProductionPlan

namespace ProductionPlan

theorem productionplan_ok_inv {load : ℚ} {plants : List Plant} {fuels : Fuels}
    {plan : List Entry}
    (h : productionplan load plants fuels = .ok plan) :
    ∃ rps tmin tmax, process_plants plants fuels = .ok (rps, tmin, tmax) ∧
      tmin ≤ load ∧ load ≤ tmax := by
  unfold productionplan at h
  cases hps : process_plants plants fuels with
  | error e =>
    rw [hps] at h
    simp at h
  | ok t =>
    obtain ⟨rps, tmin, tmax⟩ := t
    rw [hps] at h
    simp only at h
    by_cases hb : load < tmin ∨ tmax < load
    · rw [if_pos hb] at h
      simp at h
    · push_neg at hb
      exact ⟨rps, tmin, tmax, rfl, hb.1, hb.2⟩

/-- C7: capacity adjustment returns effective-minimum 0 and
effective-maximum `declared-max × clamp(availability, 0, 100) / 100` for a
variable-wind unit (so 0% yields 0 and 100% yields the declared maximum,
out-of-range values clamping first), and passes the declared bounds
through unchanged for every other category. -/
theorem obtain_power_wind_clamp_spec (plant : Plant) (fuels : Fuels) :
    (plant.ptype ≠ "windturbine" →
      obtain_power plant fuels = .ok (plant.pmin, plant.pmax)) ∧
    (∀ w : ℚ, plant.ptype = "windturbine" → fuels.wind = some w →
      obtain_power plant fuels = .ok (0, plant.pmax * (max 0 (min 100 w) / 100)) ∧
      (w = 0 → obtain_power plant fuels = .ok (0, 0)) ∧
      (w = 100 → obtain_power plant fuels = .ok (0, plant.pmax))) := by
  constructor
  · intro h
    unfold obtain_power
    rw [if_pos h]
  · intro w ht hw
    have hbase : obtain_power plant fuels =
        .ok (0, plant.pmax * (max 0 (min 100 w) / 100)) := by
      unfold obtain_power
      rw [if_neg (by simp [ht])]
      unfold get_windpowerplant_power
      rw [hw]
      simp only [qmax_eq, qmin_eq]
    refine ⟨hbase, ?_, ?_⟩
    · intro h0
      subst h0
      rw [hbase]
      norm_num
    · intro h100
      subst h100
      rw [hbase]
      norm_num

/-- C7 witness: a wind unit with declared maximum 50 and out-of-range
availability 150% is clamped to 100% and keeps effective bounds (0, 50). -/
theorem obtain_power_wind_clamp_spec_witness :
    obtain_power ⟨"W", "windturbine", none, 0, 50⟩ ⟨none, none, none, some 150⟩ =
      .ok (0, (⟨"W", "windturbine", none, 0, 50⟩ : Plant).pmax *
        (max 0 (min 100 (150 : ℚ)) / 100)) :=
  ((obtain_power_wind_clamp_spec ⟨"W", "windturbine", none, 0, 50⟩
    ⟨none, none, none, some 150⟩).2 150 rfl rfl).1

/-- C8: a thermal-gas unit's marginal cost is
`gas_price / efficiency + 0.3 × carbon_price`, with the carbon price
defaulting to 0 and the efficiency defaulting to 1 when absent; a missing
gas price fails the cost computation with the missing-fuel-price error. -/
theorem compute_cost_gasfired_spec (plant : Plant) (fuels : Fuels)
    (ht : plant.ptype = "gasfired") :
    (∀ g : ℚ, fuels.gas = some g →
      compute_cost plant fuels =
        .ok (.fin (g / plant.efficiency.getD 1 + 3 / 10 * fuels.co2.getD 0))) ∧
    (fuels.gas = none → compute_cost plant fuels = .error .missingGasPrice) := by
  constructor
  · intro g hg
    unfold compute_cost
    rw [if_neg (by simp [ht]), if_pos ht, hg]
  · intro hg
    unfold compute_cost
    rw [if_neg (by simp [ht]), if_pos ht, hg]

/-- C8 witness: a gas unit with absent efficiency (default 1) and absent
carbon price (default 0) at gas price 13 costs 13/1 + 0.3·0. -/
theorem compute_cost_gasfired_spec_witness :
    compute_cost ⟨"g1", "gasfired", none, 0, 10⟩ ⟨some 13, none, none, none⟩ =
      .ok (.fin (13 / (Option.none.getD 1) +
        3 / 10 * ((⟨some 13, none, none, none⟩ : Fuels).co2.getD 0))) :=
  (compute_cost_gasfired_spec ⟨"g1", "gasfired", none, 0, 10⟩
    ⟨some 13, none, none, none⟩ rfl).1 13 rfl

end ProductionPlan

namespace ProductionPlan

theorem obtain_power_wind_err {p : Plant} {fuels : Fuels}
    (hw : fuels.wind = none) (ht : p.ptype = "windturbine") :
    obtain_power p fuels = .error .invalidWind := by
  unfold obtain_power
  rw [if_neg (by simp [ht])]
  unfold get_windpowerplant_power
  rw [hw]

theorem process_plants_err_of_wind {plants : List Plant} {fuels : Fuels}
    (hw : fuels.wind = none)
    (h : ∃ p ∈ plants, p.ptype = "windturbine") :
    ∃ e, process_plants plants fuels = .error e := by
  induction plants with
  | nil => simp at h
  | cons p ps ih =>
    unfold process_plants
    by_cases hp : p.ptype = "windturbine"
    · refine ⟨.invalidWind, ?_⟩
      rw [obtain_power_wind_err hw hp]
    · have hmem : ∃ q ∈ ps, q.ptype = "windturbine" := by
        obtain ⟨q, hq, hqt⟩ := h
        rcases List.mem_cons.mp hq with rfl | hqs
        · exact absurd hqt hp
        · exact ⟨q, hqs, hqt⟩
      obtain ⟨e, hps⟩ := ih hmem
      cases hop : obtain_power p fuels with
      | error e0 => exact ⟨e0, rfl⟩
      | ok pr =>
        obtain ⟨a, b⟩ := pr
        cases hcc : compute_cost p fuels with
        | error e1 => exact ⟨e1, rfl⟩
        | ok c =>
          refine ⟨e, ?_⟩
          rw [hps]

theorem process_plants_invalidWind {pre post : List Plant} {w : Plant} {fuels : Fuels}
    (hw : fuels.wind = none) (hwt : w.ptype = "windturbine")
    (hpre : ∀ q ∈ pre, ∃ c, compute_cost q fuels = .ok c) :
    process_plants (pre ++ w :: post) fuels = .error .invalidWind := by
  induction pre with
  | nil =>
    unfold process_plants
    simp only [List.nil_append]
    rw [obtain_power_wind_err hw hwt]
  | cons q pre ih =>
    unfold process_plants
    simp only [List.cons_append]
    by_cases hq : q.ptype = "windturbine"
    · rw [obtain_power_wind_err hw hq]
    · cases hop : obtain_power q fuels with
      | error e =>
        exfalso
        unfold obtain_power at hop
        rw [if_pos hq] at hop
        simp at hop
      | ok pr =>
        obtain ⟨a, b⟩ := pr
        obtain ⟨c, hc⟩ := hpre q (by simp)
        rw [hc]
        rw [ih (fun r hr => hpre r (by simp [hr]))]

/-- C9 counterexample: a request with a wind unit whose availability is
missing is not always rejected with the invalid-availability error — when
an earlier unit's required fuel price is also missing, the request dies on
the missing-fuel-price failure instead (still with no plan). -/
theorem wind_missing_but_error_is_missing_gas :
    ((⟨"W", "windturbine", none, 0, 50⟩ : Plant) ∈
        [(⟨"G", "gasfired", some 1, 0, 10⟩ : Plant), ⟨"W", "windturbine", none, 0, 50⟩] ∧
      (⟨"W", "windturbine", none, 0, 50⟩ : Plant).ptype = "windturbine" ∧
      (⟨none, none, none, none⟩ : Fuels).wind = none) ∧
    productionplan 1 [⟨"G", "gasfired", some 1, 0, 10⟩, ⟨"W", "windturbine", none, 0, 50⟩]
        ⟨none, none, none, none⟩ = .error .missingGasPrice ∧
    Err.missingGasPrice ≠ Err.invalidWind := by
  with_unfolding_all decide

/-- C9 amended: when the wind availability is missing or non-numeric and
the request contains a variable-wind unit, the whole request fails before
any allocation and no plan (not even partial) is returned; the failure is
the invalid-availability error whenever every unit listed before some wind
unit passes its cost computation (in particular when the wind unit comes
first or all fuel prices are present). -/
theorem wind_missing_request_fails (load : ℚ) (plants : List Plant) (fuels : Fuels)
    (hw : fuels.wind = none) :
    ((∃ p ∈ plants, p.ptype = "windturbine") →
      ∀ plan, productionplan load plants fuels ≠ .ok plan) ∧
    (∀ pre w post, plants = pre ++ w :: post → w.ptype = "windturbine" →
      (∀ q ∈ pre, ∃ c, compute_cost q fuels = .ok c) →
      productionplan load plants fuels = .error .invalidWind) := by
  constructor
  · intro h plan hok
    obtain ⟨e, hpp⟩ := process_plants_err_of_wind hw h
    unfold productionplan at hok
    rw [hpp] at hok
    simp at hok
  · intro pre w post hsplit hwt hpre
    subst hsplit
    unfold productionplan
    rw [process_plants_invalidWind hw hwt hpre]

/-- C9 witness: a lone wind unit with missing availability is rejected
(second conjunct instantiable with the empty prefix yields the
invalid-availability error). -/
theorem wind_missing_request_fails_witness :
    ((∃ p ∈ [(⟨"W", "windturbine", none, 0, 50⟩ : Plant)], p.ptype = "windturbine") →
      ∀ plan, productionplan 1 [⟨"W", "windturbine", none, 0, 50⟩]
        ⟨some 10, none, none, none⟩ ≠ .ok plan) ∧
    (∀ pre w post,
      [(⟨"W", "windturbine", none, 0, 50⟩ : Plant)] = pre ++ w :: post →
      w.ptype = "windturbine" →
      (∀ q ∈ pre, ∃ c, compute_cost q (⟨some 10, none, none, none⟩ : Fuels) = .ok c) →
      productionplan 1 [⟨"W", "windturbine", none, 0, 50⟩]
        ⟨some 10, none, none, none⟩ = .error .invalidWind) :=
  wind_missing_request_fails 1 [⟨"W", "windturbine", none, 0, 50⟩]
    ⟨some 10, none, none, none⟩ rfl

end ProductionPlan

namespace ProductionPlan

/-- C2 counterexample: a request whose load lies inside the aggregate
effective bounds is nonetheless rejected — the single gas unit has bounds
(0, 10) after capacity adjustment and the load is 5, yet the computation
fails with the missing-gas-price error, not a plan and not LoadOutOfRange. -/
theorem load_in_bounds_yet_no_plan :
    obtain_power ⟨"G", "gasfired", some 1, 0, 10⟩ ⟨none, none, none, none⟩ = .ok (0, 10) ∧
    (0 : ℚ) ≤ 5 ∧ (5 : ℚ) ≤ 10 ∧
    productionplan 5 [⟨"G", "gasfired", some 1, 0, 10⟩] ⟨none, none, none, none⟩ =
      .error .missingGasPrice ∧
    Err.missingGasPrice ≠ Err.loadOutOfRange 5 0 10 := by
  with_unfolding_all decide

/-- C2 amended: for well-formed units whose capacity adjustment and
per-unit cost computation all succeed, a request is accepted iff
`Σ effective-min ≤ load ≤ Σ effective-max`; otherwise it fails with
LoadOutOfRange carrying the load and the aggregate bounds.  (A failing
capacity adjustment or cost computation rejects the request earlier, with
the corresponding hard error.) -/
theorem accepted_iff_load_in_bounds (load : ℚ) (plants : List Plant) (fuels : Fuels)
    (rps : List RPlant) (tmin tmax : ℚ)
    (hv : ∀ p ∈ plants, 0 ≤ p.pmin ∧ 0 ≤ p.pmax)
    (hpp : process_plants plants fuels = .ok (rps, tmin, tmax)) :
    ((∃ plan, productionplan load plants fuels = .ok plan) ↔
      (tmin ≤ load ∧ load ≤ tmax)) ∧
    (¬ (tmin ≤ load ∧ load ≤ tmax) →
      productionplan load plants fuels = .error (.loadOutOfRange load tmin tmax)) := by
  constructor
  · constructor
    · rintro ⟨plan, hok⟩
      obtain ⟨rps', tmin', tmax', hps', hb1, hb2⟩ := productionplan_ok_inv hok
      rw [hpp] at hps'
      simp only [Except.ok.injEq, Prod.mk.injEq] at hps'
      obtain ⟨-, h2, h3⟩ := hps'
      rw [h2, h3]
      exact ⟨hb1, hb2⟩
    · rintro ⟨hb1, hb2⟩
      exact ⟨_, (productionplan_ok_eq hv hpp hb1 hb2).1⟩
  · intro hnb
    push_neg at hnb
    have hcond : load < tmin ∨ tmax < load := by
      rcases lt_or_le load tmin with h | h
      · exact Or.inl h
      · exact Or.inr (hnb h)
    simp only [productionplan, hpp]
    rw [if_pos hcond]

/-- C2 witness: the one-gas-unit request with gas price present is
accepted at load 5 iff 0 ≤ 5 ≤ 10, and out-of-range loads are rejected
with LoadOutOfRange (vacuously instantiated here at an in-range load). -/
theorem accepted_iff_load_in_bounds_witness :
    ((∃ plan, productionplan 5 [⟨"G", "gasfired", some 1, 0, 10⟩]
        ⟨some 10, none, none, none⟩ = .ok plan) ↔ ((0 : ℚ) ≤ 5 ∧ (5 : ℚ) ≤ 10)) ∧
    (¬ ((0 : ℚ) ≤ 5 ∧ (5 : ℚ) ≤ 10) →
      productionplan 5 [⟨"G", "gasfired", some 1, 0, 10⟩] ⟨some 10, none, none, none⟩ =
        .error (.loadOutOfRange 5 0 10)) :=
  accepted_iff_load_in_bounds 5 [⟨"G", "gasfired", some 1, 0, 10⟩]
    ⟨some 10, none, none, none⟩ [⟨"G", "gasfired", 1, 0, 10, .fin 10, 0⟩] 0 10
    (by with_unfolding_all decide) (by with_unfolding_all decide)

end ProductionPlan

namespace ProductionPlan

/-- C3: with thermal candidates A (bounds 5–10, cost 10) and B (bounds
30–100, cost 20) at load 35, the plan is A = 10, B = 25; the total equals
the load exactly, the rebalancing loop runs zero iterations on the filled
state, and B's floor violation (25 < 30) survives to the final plan. -/
theorem merit_fill_floor_violation_concrete :
    productionplan 35 [⟨"A", "gasfired", some 1, 5, 10⟩, ⟨"B", "turbojet", some 1, 30, 100⟩]
        ⟨some 10, some 20, none, none⟩ = .ok [⟨"A", 10⟩, ⟨"B", 25⟩] ∧
    sumPowerE [Entry.mk "A" 10, Entry.mk "B" 25] = 35 ∧
    (meritFill 35 [⟨"A", "gasfired", 1, 5, 10, .fin 10, 0⟩,
        ⟨"B", "turbojet", 1, 30, 100, .fin 20, 0⟩]).1 =
      [⟨"A", "gasfired", 1, 5, 10, .fin 10, 10⟩, ⟨"B", "turbojet", 1, 30, 100, .fin 20, 25⟩] ∧
    optional_precision_iteration_aux 35
        [⟨"A", "gasfired", 1, 5, 10, .fin 10, 10⟩, ⟨"B", "turbojet", 1, 30, 100, .fin 20, 25⟩]
        1000 0 (1 / 1000000) =
      ([⟨"A", "gasfired", 1, 5, 10, .fin 10, 10⟩, ⟨"B", "turbojet", 1, 30, 100, .fin 20, 25⟩],
        0) ∧
    (25 : ℚ) < 30 := by
  with_unfolding_all decide

/-- C4 counterexample: in the accepted A/B request at load 35, the plan
entry B = 25 sits below its candidate's effective minimum 30 by more than
the claimed 1e-6 slack, so the claimed lower bound fails. -/
theorem plan_entry_below_effective_min :
    productionplan 35 [⟨"A", "gasfired", some 1, 5, 10⟩, ⟨"B", "turbojet", some 1, 30, 100⟩]
        ⟨some 10, some 20, none, none⟩ = .ok [⟨"A", 10⟩, ⟨"B", 25⟩] ∧
    process_plants [⟨"A", "gasfired", some 1, 5, 10⟩, ⟨"B", "turbojet", some 1, 30, 100⟩]
        ⟨some 10, some 20, none, none⟩ =
      .ok ([⟨"A", "gasfired", 1, 5, 10, .fin 10, 0⟩,
        ⟨"B", "turbojet", 1, 30, 100, .fin 20, 0⟩], 35, 110) ∧
    ¬ ((30 : ℚ) - 1 / 1000000 ≤ 25) := by
  with_unfolding_all decide

/-- C4 amended: for every accepted request over well-formed units, each
plan entry's power satisfies `0 ≤ power ≤ effective-max + 1e-6` for a
same-named candidate; the claimed lower bound `effective-min − 1e-6` does
not hold in general. -/
theorem plan_entries_within_upper_envelope (load : ℚ) (plants : List Plant)
    (fuels : Fuels) (rps : List RPlant) (tmin tmax : ℚ) (plan : List Entry)
    (hv : ∀ p ∈ plants, 0 ≤ p.pmin ∧ 0 ≤ p.pmax)
    (hpp : process_plants plants fuels = .ok (rps, tmin, tmax))
    (hok : productionplan load plants fuels = .ok plan) :
    ∀ e ∈ plan, ∃ c ∈ rps, e.name = c.name ∧ 0 ≤ e.power ∧
      e.power ≤ c.pmax + 1 / 1000000 := by
  obtain ⟨rps', tmin', tmax', hps', hb1, hb2⟩ := productionplan_ok_inv hok
  rw [hpp] at hps'
  simp only [Except.ok.injEq, Prod.mk.injEq] at hps'
  obtain ⟨h1, h2, h3⟩ := hps'
  subst h1
  rw [← h2] at hb1
  rw [← h3] at hb2
  obtain ⟨heq, hr1, hr2⟩ := productionplan_ok_eq hv hpp hb1 hb2
  obtain ⟨hmem, htmin, htmax⟩ := process_plants_facts hpp hv
  have hzero : ∀ r ∈ initPlants rps, r.power = 0 := initPlants_power_zero rps
  have hsum0 : sumPower (initPlants rps) = 0 := sumBy_eq_zero hzero
  have hG : meritFill load rps = fillLoop (initPlants rps) load := by
    unfold meritFill
    rw [show sumPower (initPlants rps) = 0 from hsum0, sub_zero]
  have hload0 : 0 ≤ load := by
    have : 0 ≤ tmin := by
      rw [htmin]
      exact sumBy_nonneg (fun r hr => (hmem r hr).2.1)
    linarith
  have hcap : ∀ r ∈ initPlants rps, 0 ≤ r.pmax - r.power := by
    intro r hr
    obtain ⟨c, hc, rfl⟩ := initPlants_mem hr
    have := (hmem c hc).2.2
    simpa using this
  rw [hok] at heq
  have hplan : plan = (meritFill load rps).1.map (fun p => Entry.mk p.name p.power) :=
    Except.ok.inj heq
  intro e he
  rw [hplan] at he
  obtain ⟨q, hq, rfl⟩ := List.mem_map.mp he
  rw [hG] at hq
  obtain ⟨p, hpI, hname, hpmin, hpmax, hcost, hple, hqle⟩ :=
    fillLoop_mem hload0 hcap q hq
  obtain ⟨c, hc, rfl⟩ := initPlants_mem hpI
  refine ⟨c, hc, ?_, ?_, ?_⟩
  · exact hname
  · simpa using hple
  · simp only
    have hc6 : (0 : ℚ) ≤ 1 / 1000000 := by norm_num
    have : ({ c with power := 0 } : RPlant).pmax = c.pmax := rfl
    rw [this] at hqle
    linarith

/-- C4 witness: in the accepted A/B request at load 35, the plan entry
B = 25 is non-negative and at most its candidate's effective maximum 100
plus 1e-6. -/
theorem plan_entries_within_upper_envelope_witness :
    0 ≤ (Entry.mk "B" (25 : ℚ)).power ∧
    (Entry.mk "B" (25 : ℚ)).power ≤
      (⟨"B", "turbojet", 1, 30, 100, .fin 20, 0⟩ : RPlant).pmax + 1 / 1000000 := by
  have h := plan_entries_within_upper_envelope 35
    [⟨"A", "gasfired", some 1, 5, 10⟩, ⟨"B", "turbojet", some 1, 30, 100⟩]
    ⟨some 10, some 20, none, none⟩
    [⟨"A", "gasfired", 1, 5, 10, .fin 10, 0⟩, ⟨"B", "turbojet", 1, 30, 100, .fin 20, 0⟩]
    35 110 [Entry.mk "A" 10, Entry.mk "B" 25]
    (by with_unfolding_all decide) (by with_unfolding_all decide)
    (by with_unfolding_all decide) (Entry.mk "B" 25) (by simp)
  obtain ⟨c, hc, hname, h0, hle⟩ := h
  simp only [List.mem_cons, List.not_mem_nil, or_false] at hc
  rcases hc with rfl | rfl
  · exact absurd hname (by with_unfolding_all decide)
  · exact ⟨h0, hle⟩

/-- C5: the response powers are appended without rounding (despite the
source comment announcing one-decimal rounding): the accepted single-unit
request at load 0.15 returns power 0.15, which is not a one-decimal value
(its own one-decimal rounding differs). -/
theorem plan_power_not_rounded_concrete :
    productionplan (3 / 20) [⟨"G", "gasfired", some 1, 0, 10⟩] ⟨some 10, none, none, none⟩ =
      .ok [⟨"G", 3 / 20⟩] ∧
    pyRound1 (3 / 20) ≠ 3 / 20 := by
  with_unfolding_all decide

/-- C6 counterexample: a correctable imbalance of 0.3 (≥ 1e-6, ≤ 0.5, with
ample spare capacity on the one plant) triggers zero corrective rounds:
the loop guard's 0.5 tolerance skips it entirely. -/
theorem rebalancer_skips_imbalance_below_half :
    (1 / 1000000 : ℚ) ≤
      qabs (sumPower [⟨"P", "gasfired", 1, 0, 10, .fin 1, 0⟩] - 3 / 10) ∧
    sumPower [⟨"P", "gasfired", 1, 0, 10, .fin 1, 0⟩] < 3 / 10 ∧
    3 / 10 - sumPower [⟨"P", "gasfired", 1, 0, 10, .fin 1, 0⟩] ≤
      (⟨"P", "gasfired", 1, 0, 10, .fin 1, 0⟩ : RPlant).pmax -
        (⟨"P", "gasfired", 1, 0, 10, .fin 1, 0⟩ : RPlant).power ∧
    optional_precision_iteration_aux (3 / 10) [⟨"P", "gasfired", 1, 0, 10, .fin 1, 0⟩]
        1000 0 (1 / 1000000) =
      ([⟨"P", "gasfired", 1, 0, 10, .fin 1, 0⟩], 0) := by
  with_unfolding_all decide

/-- C6 amended: the 0.5 MW tolerance is the rebalancing loop's guard, not
merely a logging threshold: whenever `|Σ current-power − load| ≤ 0.5` the
loop body runs zero times and the plants are returned untouched — in
particular imbalances between 1e-6 and 0.5 are never corrected; corrective
rounds only run while the imbalance exceeds 0.5 (capped at 1000, with the
1e-6 threshold as an in-loop break). -/
theorem rebalancer_zero_rounds_within_half (load minDiff : ℚ) (plants : List RPlant)
    (max_iter iter_count : ℕ)
    (h : qabs (sumPower plants - load) ≤ 1 / 2) :
    optional_precision_iteration_aux load plants max_iter iter_count minDiff =
      (plants, iter_count) ∧
    (optional_precision_iteration load plants max_iter iter_count minDiff).1 = plants := by
  constructor
  · unfold optional_precision_iteration_aux
    exact oPIGo_close h
  · rw [optional_precision_iteration_close h]

/-- C6 witness: a 0.2 MW imbalance on a single plant yields zero rounds
and an unchanged plant list. -/
theorem rebalancer_zero_rounds_within_half_witness :
    optional_precision_iteration_aux (1 / 5) [⟨"Q", "gasfired", 1, 0, 5, .fin 2, 0⟩]
        1000 0 (1 / 1000000) =
      ([⟨"Q", "gasfired", 1, 0, 5, .fin 2, 0⟩], 0) ∧
    (optional_precision_iteration (1 / 5) [⟨"Q", "gasfired", 1, 0, 5, .fin 2, 0⟩]
        1000 0 (1 / 1000000)).1 = [⟨"Q", "gasfired", 1, 0, 5, .fin 2, 0⟩] :=
  rebalancer_zero_rounds_within_half (1 / 5) (1 / 1000000)
    [⟨"Q", "gasfired", 1, 0, 5, .fin 2, 0⟩] 1000 0 (by with_unfolding_all decide)

/-- C10: for every accepted request over well-formed units, the
merit-order fill alone lands within 1e-9 of the load, the rebalancing
while-loop body executes zero times, the rounding reconciler leaves the
response untouched, and the returned plan is exactly the unrounded fill
values of the ascending-cost-sorted candidates. -/
theorem accepted_plan_is_merit_fill (load : ℚ) (plants : List Plant) (fuels : Fuels)
    (rps : List RPlant) (tmin tmax : ℚ) (plan : List Entry)
    (hv : ∀ p ∈ plants, 0 ≤ p.pmin ∧ 0 ≤ p.pmax)
    (hpp : process_plants plants fuels = .ok (rps, tmin, tmax))
    (hok : productionplan load plants fuels = .ok plan) :
    qabs (sumPower (meritFill load rps).1 - load) ≤ eps9 ∧
    optional_precision_iteration_aux load (meritFill load rps).1 1000 0 (1 / 1000000) =
      ((meritFill load rps).1, 0) ∧
    ensure_total_equals_load load (meritFill load rps).1
      ((meritFill load rps).1.map (fun p => Entry.mk p.name p.power))
      (sumPowerE ((meritFill load rps).1.map (fun p => Entry.mk p.name p.power))) =
      (meritFill load rps).1.map (fun p => Entry.mk p.name p.power) ∧
    plan = (meritFill load rps).1.map (fun p => Entry.mk p.name p.power) := by
  obtain ⟨rps', tmin', tmax', hps', hb1, hb2⟩ := productionplan_ok_inv hok
  rw [hpp] at hps'
  simp only [Except.ok.injEq, Prod.mk.injEq] at hps'
  obtain ⟨h1, h2, h3⟩ := hps'
  subst h1
  rw [← h2] at hb1
  rw [← h3] at hb2
  obtain ⟨heq, hr1, hr2⟩ := productionplan_ok_eq hv hpp hb1 hb2
  have habs : qabs (sumPower (meritFill load rps).1 - load) ≤ eps9 := by
    rw [qabs_eq]
    have hd : sumPower (meritFill load rps).1 - load =
        -(load - sumPower (meritFill load rps).1) := by ring
    rw [hd, abs_neg, abs_of_nonneg hr1]
    exact hr2
  have hhalf : qabs (sumPower (meritFill load rps).1 - load) ≤ 1 / 2 := by
    have : eps9 ≤ 1 / 2 := by norm_num [eps9]
    linarith
  refine ⟨habs, ?_, ?_, ?_⟩
  · unfold optional_precision_iteration_aux
    exact oPIGo_close hhalf
  · apply ensure_noop
    rw [sumPowerE_map, abs_of_nonneg hr1]
    exact hr2
  · rw [hok] at heq
    exact Except.ok.inj heq

/-- C10 witness: in the accepted single-gas-unit request at load 5 the fill
total is within 1e-9 of 5, the loop runs zero times, the reconciler is the
identity, and the plan equals the fill values. -/
theorem accepted_plan_is_merit_fill_witness :
    qabs (sumPower (meritFill 5 [⟨"G", "gasfired", 1, 0, 10, .fin 10, 0⟩]).1 - 5) ≤ eps9 ∧
    optional_precision_iteration_aux 5
        (meritFill 5 [⟨"G", "gasfired", 1, 0, 10, .fin 10, 0⟩]).1 1000 0 (1 / 1000000) =
      ((meritFill 5 [⟨"G", "gasfired", 1, 0, 10, .fin 10, 0⟩]).1, 0) ∧
    ensure_total_equals_load 5 (meritFill 5 [⟨"G", "gasfired", 1, 0, 10, .fin 10, 0⟩]).1
      ((meritFill 5 [⟨"G", "gasfired", 1, 0, 10, .fin 10, 0⟩]).1.map
        (fun p => Entry.mk p.name p.power))
      (sumPowerE ((meritFill 5 [⟨"G", "gasfired", 1, 0, 10, .fin 10, 0⟩]).1.map
        (fun p => Entry.mk p.name p.power))) =
      (meritFill 5 [⟨"G", "gasfired", 1, 0, 10, .fin 10, 0⟩]).1.map
        (fun p => Entry.mk p.name p.power) ∧
    [Entry.mk "G" 5] =
      (meritFill 5 [⟨"G", "gasfired", 1, 0, 10, .fin 10, 0⟩]).1.map
        (fun p => Entry.mk p.name p.power) :=
  accepted_plan_is_merit_fill 5 [⟨"G", "gasfired", some 1, 0, 10⟩]
    ⟨some 10, none, none, none⟩ [⟨"G", "gasfired", 1, 0, 10, .fin 10, 0⟩] 0 10
    [Entry.mk "G" 5]
    (by with_unfolding_all decide) (by with_unfolding_all decide)
    (by with_unfolding_all decide)

end ProductionPlan

namespace ProductionPlan

theorem pyRoundInt_err (y : ℚ) : |((pyRoundInt y : ℤ) : ℚ) - y| ≤ 1 / 2 := by
  unfold pyRoundInt
  have h1 : ((Int.floor y : ℤ) : ℚ) ≤ y := Int.floor_le y
  have h2 : y < ((Int.floor y : ℤ) : ℚ) + 1 := Int.lt_floor_add_one y
  by_cases ha : y - ((Int.floor y : ℤ) : ℚ) < 1 / 2
  · rw [if_pos ha, abs_sub_comm, abs_of_nonneg (by linarith)]
    linarith
  · rw [if_neg ha]
    by_cases hb : 1 / 2 < y - ((Int.floor y : ℤ) : ℚ)
    · rw [if_pos hb]
      push_cast
      rw [abs_of_nonneg (by linarith)]
      linarith
    · rw [if_neg hb]
      have hhalf : y - ((Int.floor y : ℤ) : ℚ) = 1 / 2 :=
        le_antisymm (not_lt.mp hb) (not_lt.mp ha)
      by_cases hev : Int.floor y % 2 = 0
      · rw [if_pos hev, abs_sub_comm, abs_of_nonneg (by linarith)]
        linarith
      · rw [if_neg hev]
        push_cast
        rw [abs_of_nonneg (by linarith)]
        linarith

theorem pyRound1_err (x : ℚ) : |pyRound1 x - x| ≤ 1 / 20 := by
  unfold pyRound1
  have h := pyRoundInt_err (10 * x)
  have he : ((pyRoundInt (10 * x) : ℤ) : ℚ) / 10 - x =
      (((pyRoundInt (10 * x) : ℤ) : ℚ) - 10 * x) / 10 := by ring
  rw [he, abs_div, abs_of_nonneg (by norm_num : (0:ℚ) ≤ 10)]
  linarith

theorem tryAdjust_sum (name : String) (d pmin pmax : ℚ) (resp : List Entry) :
    ((tryAdjust name d pmin pmax resp).2 = d ∧
      sumPowerE (tryAdjust name d pmin pmax resp).1 = sumPowerE resp) ∨
    ((tryAdjust name d pmin pmax resp).2 = 0 ∧
      |sumPowerE (tryAdjust name d pmin pmax resp).1 - (sumPowerE resp + d)| ≤ 1 / 20) := by
  induction resp with
  | nil =>
    left
    constructor
    · rfl
    · rfl
  | cons r rs ih =>
    unfold tryAdjust
    by_cases hn : r.name = name
    · rw [if_pos hn]
      by_cases hc : pmin - eps9 ≤ r.power + d ∧ r.power + d ≤ pmax + eps9 ∧ 0 ≤ r.power + d
      · rw [if_pos hc]
        right
        refine ⟨rfl, ?_⟩
        simp only [sumPowerE, List.map_cons, List.sum_cons]
        have := pyRound1_err (r.power + d)
        have he : pyRound1 (r.power + d) + (List.map (fun r => r.power) rs).sum -
            (r.power + (List.map (fun r => r.power) rs).sum + d) =
            pyRound1 (r.power + d) - (r.power + d) := by ring
        rw [he]
        exact this
      · rw [if_neg hc]
        left
        exact ⟨rfl, rfl⟩
    · rw [if_neg hn]
      rcases ih with ⟨hd, hs⟩ | ⟨hd, hs⟩
      · left
        refine ⟨hd, ?_⟩
        simp only [sumPowerE, List.map_cons, List.sum_cons]
        simp only [sumPowerE] at hs
        rw [hs]
      · right
        refine ⟨hd, ?_⟩
        simp only [sumPowerE, List.map_cons, List.sum_cons]
        simp only [sumPowerE] at hs
        have he : r.power + (List.map (fun r => r.power) (tryAdjust name d pmin pmax rs).1).sum -
            (r.power + (List.map (fun r => r.power) rs).sum + d) =
            (List.map (fun r => r.power) (tryAdjust name d pmin pmax rs).1).sum -
            ((List.map (fun r => r.power) rs).sum + d) := by ring
        rw [he]
        exact hs

theorem adjustLoop_sum (plants : List RPlant) (resp : List Entry) (d : ℚ) :
    sumPowerE (adjustLoop plants resp d) = sumPowerE resp ∨
    |sumPowerE (adjustLoop plants resp d) - (sumPowerE resp + d)| ≤ 1 / 20 := by
  induction plants generalizing resp d with
  | nil =>
    left
    rfl
  | cons p ps ih =>
    unfold adjustLoop
    rcases tryAdjust_sum p.name d p.pmin p.pmax resp with ⟨hd, hs⟩ | ⟨hd, hs⟩
    · by_cases hz : (tryAdjust p.name d p.pmin p.pmax resp).2 = 0
      · rw [if_pos hz]
        left
        exact hs
      · rw [if_neg hz, hd]
        rcases ih (tryAdjust p.name d p.pmin p.pmax resp).1 d with hl | hr
        · left
          rw [hl, hs]
        · right
          rw [hs] at hr
          exact hr
    · rw [if_pos hd]
      right
      exact hs

theorem ensure_sum (load rt : ℚ) (rps : List RPlant) (resp : List Entry)
    (hrt : rt = sumPowerE resp) :
    |sumPowerE (ensure_total_equals_load load rps resp rt) - load| ≤
      max |sumPowerE resp - load| (1 / 10) := by
  unfold ensure_total_equals_load
  by_cases hc : 1 / 10 ≤ qabs (pyRound1 (load - rt))
  · rw [if_pos hc]
    have hderr : |pyRound1 (load - rt) - (load - rt)| ≤ 1 / 20 := pyRound1_err (load - rt)
    rcases adjustLoop_sum (insertionSortBy (fun a b => Cost.ble a.cost b.cost) rps) resp
        (pyRound1 (load - rt)) with hl | hr
    · rw [hl]
      exact le_max_left _ _
    · refine le_trans ?_ (le_max_right _ _)
      have hmid : |sumPowerE resp + pyRound1 (load - rt) - load| ≤ 1 / 20 := by
        have he : sumPowerE resp + pyRound1 (load - rt) - load =
            pyRound1 (load - rt) - (load - rt) := by
          rw [hrt]
          ring
        rw [he]
        exact hderr
      calc |sumPowerE (adjustLoop (insertionSortBy (fun a b => Cost.ble a.cost b.cost) rps)
              resp (pyRound1 (load - rt))) - load|
          ≤ |sumPowerE (adjustLoop (insertionSortBy (fun a b => Cost.ble a.cost b.cost) rps)
              resp (pyRound1 (load - rt))) - (sumPowerE resp + pyRound1 (load - rt))| +
            |sumPowerE resp + pyRound1 (load - rt) - load| := abs_sub_le _ _ _
        _ ≤ 1 / 20 + 1 / 20 := add_le_add hr hmid
        _ = 1 / 10 := by norm_num
  · rw [if_neg hc]
    exact le_max_left _ _

theorem productionplan_ok_plan_eq {load : ℚ} {plants : List Plant} {fuels : Fuels}
    {plan : List Entry}
    (hok : productionplan load plants fuels = .ok plan) :
    ∃ rps tmin tmax, process_plants plants fuels = .ok (rps, tmin, tmax) ∧
      tmin ≤ load ∧ load ≤ tmax ∧
      qabs (sumPower (meritFill load rps).1 - load) ≤ 1 / 2 ∧
      plan = ensure_total_equals_load load (meritFill load rps).1
        ((meritFill load rps).1.map (fun p => Entry.mk p.name p.power))
        (sumPowerE ((meritFill load rps).1.map (fun p => Entry.mk p.name p.power))) := by
  unfold productionplan at hok
  cases hps : process_plants plants fuels with
  | error e =>
    rw [hps] at hok
    simp at hok
  | ok t =>
    obtain ⟨rps, tmin, tmax⟩ := t
    rw [hps] at hok
    simp only at hok
    by_cases hb : load < tmin ∨ tmax < load
    · rw [if_pos hb] at hok
      simp at hok
    · rw [if_neg hb] at hok
      push_neg at hb
      by_cases hg : qabs (sumPower (meritFill load rps).1 - load) ≤ 1 / 2
      · rw [if_neg (not_not_intro hg)] at hok
        rw [optional_precision_iteration_close hg] at hok
        exact ⟨rps, tmin, tmax, rfl, hb.1, hb.2, hg, (Except.ok.inj hok).symm⟩
      · rw [if_pos hg] at hok
        simp at hok

/-- C1: for every accepted request — one that yields a plan rather than a
hard error — the total power of the returned plan is within 0.5 MW of the
requested load. -/
theorem accepted_sum_within_half (load : ℚ) (plants : List Plant) (fuels : Fuels)
    (plan : List Entry)
    (hok : productionplan load plants fuels = .ok plan) :
    |sumPowerE plan - load| ≤ 1 / 2 := by
  obtain ⟨rps, tmin, tmax, hpp, hb1, hb2, hg, hplan⟩ := productionplan_ok_plan_eq hok
  rw [hplan]
  have hs := ensure_sum load
    (sumPowerE ((meritFill load rps).1.map (fun p => Entry.mk p.name p.power)))
    (meritFill load rps).1
    ((meritFill load rps).1.map (fun p => Entry.mk p.name p.power)) rfl
  have hfill : |sumPowerE ((meritFill load rps).1.map (fun p => Entry.mk p.name p.power)) -
      load| ≤ 1 / 2 := by
    rw [sumPowerE_map, ← qabs_eq]
    exact hg
  have hmax : max |sumPowerE ((meritFill load rps).1.map
      (fun p => Entry.mk p.name p.power)) - load| (1 / 10) ≤ 1 / 2 := by
    apply max_le hfill
    norm_num
  linarith

/-- C1 witness: the one-gas-unit request at load 5 is accepted and its plan
total is within 0.5 of 5. -/
theorem accepted_sum_within_half_witness :
    |sumPowerE [Entry.mk "G" 5] - 5| ≤ 1 / 2 :=
  accepted_sum_within_half 5 [⟨"G", "gasfired", some 1, 0, 10⟩]
    ⟨some 10, none, none, none⟩ [Entry.mk "G" 5] (by with_unfolding_all decide)

end ProductionPlan
